import Mathlib

/-!
 Verification of the domain valuation engine (`internal/valuation`).

Strings are modelled as `List Char`; Go's byte length coincides with the
character count on ASCII input, and `unicode.IsDigit` / `unicode.IsLetter` /
`unicode.IsUpper` / `unicode.IsLower` / `strings.ToLower` are modelled by the
corresponding ASCII `Char` operations.  Go `float64` arithmetic is modelled by
exact rational arithmetic over `ℚ`; every constant in the engine is a small
decimal, so the rational model follows the source formulas literally.
-/

namespace Valuation

/-- The factor record produced by `analyzeDomain` (Go struct `Factors`). -/
structure Factors where
  length : Nat
  lengthScore : ℚ
  characterScore : ℚ
  wordScore : ℚ
  tldScore : ℚ
  pronounceable : Bool
  brandable : Bool
  hasNumbers : Bool
  hasHyphens : Bool
deriving DecidableEq

/-- The Go zero value of `Factors`, used by the invalid-domain branch of
`Evaluate`, which constructs a `Result` without setting the factors field. -/
def Factors.zero : Factors := ⟨0, 0, 0, 0, 0, false, false, false, false⟩

/-- The engine output (Go struct `Result`). -/
structure Result where
  estimatedValue : ℤ
  currency : String
  confidence : String
  factors : Factors
  reasoning : String
deriving DecidableEq

/-- `premiumWords` list installed by `NewEngine`. -/
def premiumWords : List (List Char) :=
  ["app", "web", "tech", "crypto", "blockchain", "ai", "ml", "data",
   "cloud", "api", "dev", "code", "digital", "online", "smart",
   "auto", "health", "finance", "bank", "pay", "shop", "store",
   "game", "play", "social", "network", "security", "privacy"].map String.data

/-- `commonTLDs` premium-coefficient table installed by `NewEngine`. -/
def commonTLDs : List (List Char × ℚ) :=
  [(".com".data, 1.0), (".net".data, 0.7), (".org".data, 0.6),
   (".io".data, 0.8), (".co".data, 0.6), (".app".data, 0.7),
   (".dev".data, 0.6), (".tech".data, 0.5), (".eth".data, 0.9),
   (".crypto".data, 0.8), (".nft".data, 0.7)]

/-- Go helper `containsNumbers`: some rune is a digit. -/
def containsNumbers (s : List Char) : Bool := s.any Char.isDigit

/-- Go helper `isAllLetters`: every rune is a letter. -/
def isAllLetters (s : List Char) : Bool := s.all Char.isAlpha

/-- Go helper `hasMixedCase`: both an upper-case and a lower-case rune occur. -/
def hasMixedCase (s : List Char) : Bool :=
  s.any Char.isUpper && s.any Char.isLower

/-- `calculateLengthScore`: step function over the name length. -/
def calculateLengthScore (length : Nat) : ℚ :=
  if length ≤ 3 then 10.0
  else if length ≤ 5 then 8.0
  else if length ≤ 7 then 6.0
  else if length ≤ 10 then 4.0
  else if length ≤ 15 then 2.0
  else 1.0

/-- The character score before the final `math.Max(0, score)` floor:
start at 5.0, penalize digits and hyphens, bonus for all letters,
penalize mixed case. -/
def characterScoreRaw (name : List Char) : ℚ :=
  let score : ℚ := 5.0
  let score := if containsNumbers name then score - 2.0 else score
  let score := if name.contains '-' then score - 1.5 else score
  let score := if isAllLetters name then score + 1.0 else score
  let score := if hasMixedCase name then score - 0.5 else score
  score

/-- `calculateCharacterScore`: the raw score floored at 0. -/
def calculateCharacterScore (name : List Char) : ℚ :=
  max 0 (characterScoreRaw name)

/-- The vowel string `"aeiou"` of `isPronounceableWord`. -/
def vowels : List Char := "aeiou".data

/-- Number of vowels counted by `isPronounceableWord`'s loop. -/
def vowelCount (lower : List Char) : Nat :=
  (lower.filter (fun c => vowels.contains c)).length

/-- Number of consonants counted by `isPronounceableWord`'s loop
(letters that are not vowels). -/
def consonantCount (lower : List Char) : Nat :=
  (lower.filter (fun c => !vowels.contains c && c.isAlpha)).length

/-- `isPronounceableWord`: at least one vowel, and the consonant/vowel ratio
lies in [0.5, 4.0]. -/
def isPronounceableWord (name : List Char) : Bool :=
  let lower := name.map Char.toLower
  let vc := vowelCount lower
  let cc := consonantCount lower
  if vc = 0 then false
  else
    let r : ℚ := (cc : ℚ) / (vc : ℚ)
    decide (0.5 ≤ r) && decide (r ≤ 4.0)

/-- `isBrandable`: length in [3,12], no digits, no hyphen, pronounceable. -/
def isBrandable (name : List Char) : Bool :=
  if name.length < 3 || name.length > 12 then false
  else if containsNumbers name || name.contains '-' then false
  else if !isPronounceableWord name then false
  else true

/-- `commonWords` list of `isLikelyDictionaryWord`. -/
def commonWords : List (List Char) :=
  ["app", "web", "net", "tech", "data", "info", "news", "shop", "store",
   "game", "play", "work", "home", "life", "love", "time", "world",
   "best", "new", "top", "first", "last", "good", "great", "super"].map String.data

/-- `isLikelyDictionaryWord`: exact match against the common-word list. -/
def isLikelyDictionaryWord (name : List Char) : Bool :=
  commonWords.contains name

/-- Prefix affix list of `isLikelyCompoundWord`. -/
def compoundPrefixes : List (List Char) :=
  ["web", "app", "my", "get", "the", "new", "top", "best"].map String.data

/-- Suffix affix list of `isLikelyCompoundWord`. -/
def compoundSuffixes : List (List Char) :=
  ["app", "web", "net", "tech", "hub", "lab", "pro", "max"].map String.data

/-- `isLikelyCompoundWord`: name of length ≥ 6 that starts with a known
prefix or ends with a known suffix, being more than 2 runes longer than it. -/
def isLikelyCompoundWord (name : List Char) : Bool :=
  if name.length < 6 then false
  else
    compoundPrefixes.any (fun p => p.isPrefixOf name && name.length > p.length + 2) ||
    compoundSuffixes.any (fun s => s.isSuffixOf name && name.length > s.length + 2)

/-- Go `strings.Contains hay needle`: the needle occurs as a contiguous
substring of the haystack. -/
def containsSub (hay needle : List Char) : Bool :=
  match hay with
  | [] => needle.isEmpty
  | _ :: t => needle.isPrefixOf hay || containsSub t needle

/-- `calculateWordScore`: +3.0 per contained premium word, +2.0 for an exact
dictionary word, +1.0 for a compound word, all over the lower-cased name. -/
def calculateWordScore (name : List Char) : ℚ :=
  let nameLower := name.map Char.toLower
  let score : ℚ := 0.0
  let score := premiumWords.foldl
    (fun s w => if containsSub nameLower w then s + 3.0 else s) score
  let score := if isLikelyDictionaryWord nameLower then score + 2.0 else score
  let score := if isLikelyCompoundWord nameLower then score + 1.0 else score
  score

/-- `calculateTLDScore`: table coefficient scaled by 5, default 1.0. -/
def calculateTLDScore (tld : List Char) : ℚ :=
  match List.lookup tld commonTLDs with
  | some score => score * 5.0
  | none => 1.0

/-- `analyzeDomain`: assemble the factor record for a name/suffix pair. -/
def analyzeDomain (name tld : List Char) : Factors :=
  ⟨name.length,
   calculateLengthScore name.length,
   calculateCharacterScore name,
   calculateWordScore name,
   calculateTLDScore tld,
   isPronounceableWord name,
   isBrandable name,
   containsNumbers name,
   name.contains '-'⟩

/-- `calculateValue`: base 100 times the assembled multiplier, clamped. -/
def calculateValue (factors : Factors) : ℚ :=
  let baseValue : ℚ := 100.0
  let multiplier : ℚ := 1.0
  let multiplier := multiplier * ((factors.lengthScore / 10.0) * 2.0)
  let multiplier := multiplier * (factors.characterScore / 5.0)
  let multiplier := multiplier * (factors.tldScore / 5.0)
  let multiplier := multiplier + (factors.wordScore / 10.0)
  let multiplier := if factors.brandable then multiplier * 1.5 else multiplier
  let multiplier := if factors.pronounceable then multiplier * 1.2 else multiplier
  let multiplier := if factors.hasNumbers then multiplier * 0.7 else multiplier
  let multiplier := if factors.hasHyphens then multiplier * 0.6 else multiplier
  let value := baseValue * multiplier
  let value := if value < 10 then 10 else value
  let value := if value > 1000000 then 1000000 else value
  value

/-- The point accumulator of `determineConfidence` (the local `score`). -/
def confidencePoints (factors : Factors) : Nat :=
  let score : Nat := 0
  let score := if factors.length ≤ 5 then score + 2 else score
  let score := if factors.brandable then score + 2 else score
  let score := if factors.pronounceable then score + 1 else score
  let score := if factors.tldScore ≥ 4.0 then score + 2 else score
  let score := if !factors.hasNumbers && !factors.hasHyphens then score + 1 else score
  score

/-- `determineConfidence`: tier from the accumulated points. -/
def determineConfidence (factors : Factors) : String :=
  if confidencePoints factors ≥ 6 then "high"
  else if confidencePoints factors ≥ 3 then "medium"
  else "low"

/-- Go's `int(x)` conversion on `float64`: truncation toward zero.  The
engine only ever converts the clamped (hence positive) value, so the
negative branch is present only for faithfulness to the conversion rule. -/
def truncQ (q : ℚ) : ℤ :=
  if q < 0 then -Rat.floor (-q) else Rat.floor q

/-- `generateReasoning`: ordered human-readable rationale. -/
def generateReasoning (factors : Factors) : String :=
  let reasons : List String := []
  let reasons :=
    if factors.length ≤ 3 then reasons ++ ["Very short domain (premium)"]
    else if factors.length ≤ 5 then reasons ++ ["Short and memorable"]
    else if factors.length > 15 then reasons ++ ["Long domain name"]
    else reasons
  let reasons := if factors.brandable then reasons ++ ["Brandable name"] else reasons
  let reasons := if factors.pronounceable then reasons ++ ["Easy to pronounce"] else reasons
  let reasons := if factors.wordScore > 2 then reasons ++ ["Contains valuable keywords"] else reasons
  let reasons := if factors.hasNumbers then reasons ++ ["Contains numbers (reduces value)"] else reasons
  let reasons := if factors.hasHyphens then reasons ++ ["Contains hyphens (reduces value)"] else reasons
  if reasons = [] then "Standard domain name"
  else String.intercalate "; " reasons

/-- Go `strings.Split domain "."`: the list of `'.'`-separated segments.
Always non-empty; the empty string yields `[[]]`, matching Go. -/
def splitOnDot : List Char → List (List Char)
  | [] => [[]]
  | c :: rest =>
    match splitOnDot rest with
    | [] => [[c]]
    | p :: ps => if c = '.' then [] :: p :: ps else (c :: p) :: ps

/-- The name/suffix extraction of `Evaluate` (lines: `parts := Split(domain,
".")`, reject `len(parts) < 2`, `name := parts[0]`,
`tld := "." + parts[len(parts)-1]`). -/
def splitDomain (domain : List Char) : Option (List Char × List Char) :=
  match splitOnDot domain with
  | p :: q :: ps => some (p, '.' :: (q :: ps).getLastD q)
  | _ => none

/-- The `Result` built by `Evaluate` when the domain has fewer than two
`'.'`-separated parts: value 0, confidence low, zero-valued factors. -/
def invalidResult : Result :=
  ⟨0, "USD", "low", Factors.zero, "Invalid domain format"⟩

/-- The `Result` built by `Evaluate` on the analysed name/suffix pair. -/
def mkResult (name tld : List Char) : Result :=
  let factors := analyzeDomain name tld
  let value := calculateValue factors
  ⟨truncQ value, "USD", determineConfidence factors, factors,
   generateReasoning factors⟩

/-- `Evaluate`: the engine's entry point. -/
def Evaluate (domain : List Char) : Result :=
  match splitDomain domain with
  | some (name, tld) => mkResult name tld
  | none => invalidResult

/-- `Evaluate` with Go's runtime-checked slice accesses (`parts[0]`,
`parts[len(parts)-1]`) modelled explicitly as fallible lookups: a `none`
result would correspond to a Go runtime panic. -/
def EvaluateOpt (domain : List Char) : Option Result :=
  let parts := splitOnDot domain
  if parts.length < 2 then some invalidResult
  else
    match parts.head?, parts.getLast? with
    | some name, some lastPart => some (mkResult name ('.' :: lastPart))
    | _, _ => none

/-- Spec-side definition (§4.3 of the spec): the multiplier assembled in the
order the spec states it, to be compared with `calculateValue`. -/
def claimMultiplier (f : Factors) : ℚ :=
  let m := (1.0 : ℚ)
  let m := m * ((f.lengthScore / 10.0) * 2.0)
  let m := m * (f.characterScore / 5.0)
  let m := m * (f.tldScore / 5.0)
  let m := m + (f.wordScore / 10.0)
  let m := if f.brandable then m * 1.5 else m
  let m := if f.pronounceable then m * 1.2 else m
  let m := if f.hasNumbers then m * 0.7 else m
  let m := if f.hasHyphens then m * 0.6 else m
  m

/-- Spec-side definition (§4.3 step 10): clamp the value into [10, 1000000]. -/
def claimClamp (v : ℚ) : ℚ := min 1000000 (max 10 v)

end Valuation

namespace Valuation

lemma splitOnDot_ne_nil (d : List Char) : splitOnDot d ≠ [] := by
  cases d with
  | nil => simp [splitOnDot]
  | cons c rest =>
    simp only [splitOnDot]
    rcases hs : splitOnDot rest with _ | ⟨p, ps⟩
    · simp [hs]
    · simp only [hs]
      split <;> simp

lemma splitOnDot_cons_eq {rest : List Char} {p : List Char} {ps : List (List Char)}
    (c : Char) (hs : splitOnDot rest = p :: ps) :
    splitOnDot (c :: rest) = if c = '.' then [] :: p :: ps else (c :: p) :: ps := by
  simp only [splitOnDot, hs]

lemma splitOnDot_no_dot {d : List Char} (h : '.' ∉ d) : splitOnDot d = [d] := by
  induction d with
  | nil => rfl
  | cons c rest ih =>
    have hc : c ≠ '.' := fun hc => h (hc ▸ List.mem_cons_self c rest)
    have hrest : '.' ∉ rest := fun hm => h (List.mem_cons_of_mem c hm)
    simp only [splitOnDot, ih hrest]
    simp [hc]

lemma two_le_splitOnDot_length {d : List Char} (h : '.' ∈ d) :
    2 ≤ (splitOnDot d).length := by
  induction d with
  | nil => cases h
  | cons c rest ih =>
    simp only [splitOnDot]
    match hs : splitOnDot rest with
    | [] => exact absurd hs (splitOnDot_ne_nil rest)
    | p :: ps =>
      by_cases hc : c = '.'
      · simp [hc]
      · have hrest : '.' ∈ rest := by
          rcases List.mem_cons.mp h with h1 | h1
          · exact absurd h1.symm hc
          · exact h1
        have := ih hrest
        rw [hs] at this
        simpa [hc] using this

lemma takeWhile_append_one {α : Type} (p : α → Bool) (xs ys : List α) :
    (xs ++ ys).takeWhile p =
      if xs.all p then xs ++ ys.takeWhile p else xs.takeWhile p := by
  induction xs with
  | nil => simp
  | cons a t ih =>
    cases ha : p a with
    | false => simp [List.takeWhile_cons, ha, List.all_cons]
    | true =>
      rw [List.cons_append, List.takeWhile_cons, ha, if_pos rfl, ih, List.all_cons, ha,
        Bool.true_and]
      by_cases ht : t.all p = true
      · rw [if_pos ht, if_pos ht, List.cons_append]
      · have ht' : t.all p = false := by simpa using ht
        rw [ht']
        simp [List.takeWhile_cons, ha]

lemma takeWhile_append_last_false {α : Type} (p : α → Bool) (y : α) (xs : List α)
    (hy : p y = false) :
    (xs ++ [y]).takeWhile p = xs.takeWhile p := by
  rw [takeWhile_append_one]
  by_cases hall : xs.all p = true
  · have hself : xs.takeWhile p = xs :=
      List.takeWhile_eq_self_iff.mpr (fun x hx => List.all_eq_true.mp hall x hx)
    simp [hall, List.takeWhile_cons, hy, hself]
  · have hall' : xs.all p = false := by simpa using hall
    simp [hall']

lemma takeWhile_append_last_notall {α : Type} (p : α → Bool) (y : α) (xs : List α)
    (hall : xs.all p = false) :
    (xs ++ [y]).takeWhile p = xs.takeWhile p := by
  rw [takeWhile_append_one]
  simp [hall]

lemma takeWhile_append_last_true {α : Type} (p : α → Bool) (y : α) (xs : List α)
    (hy : p y = true) (hall : xs.all p = true) :
    (xs ++ [y]).takeWhile p = xs ++ [y] := by
  rw [takeWhile_append_one]
  simp [hall, List.takeWhile_cons, hy]

lemma getLastD_irrel {α : Type} {l : List α} (h : l ≠ []) (a b : α) :
    l.getLastD a = l.getLastD b := by
  cases l with
  | nil => exact absurd rfl h
  | cons x xs => rw [List.getLastD_cons, List.getLastD_cons]

lemma splitOnDot_headD (d : List Char) :
    (splitOnDot d).headD [] = d.takeWhile (fun c => c != '.') := by
  induction d with
  | nil => rfl
  | cons c rest ih =>
    obtain ⟨p, ps, hs⟩ := List.exists_cons_of_ne_nil (splitOnDot_ne_nil rest)
    rw [hs] at ih
    rw [splitOnDot_cons_eq c hs]
    by_cases hc : c = '.'
    · simp [hc, List.takeWhile_cons]
    · have hb : (c != '.') = true := by simpa using hc
      simp only [List.headD_cons] at ih
      simp [hc, List.takeWhile_cons, hb, ih]

lemma splitOnDot_getLastD (d : List Char) :
    (splitOnDot d).getLastD [] = (d.reverse.takeWhile (fun c => c != '.')).reverse := by
  induction d with
  | nil => rfl
  | cons c rest ih =>
    obtain ⟨p, ps, hs⟩ := List.exists_cons_of_ne_nil (splitOnDot_ne_nil rest)
    rw [hs] at ih
    rw [splitOnDot_cons_eq c hs, List.reverse_cons]
    by_cases hc : c = '.'
    · have hb : ((fun x => x != '.') c) = false := by simp [hc]
      rw [if_pos hc, takeWhile_append_last_false (fun x => x != '.') c rest.reverse hb,
        List.getLastD_cons]
      exact ih
    · have hb : ((fun x => x != '.') c) = true := by simpa using hc
      by_cases hdot : '.' ∈ rest
      · have hps : ps ≠ [] := by
          have h2 := two_le_splitOnDot_length hdot
          rw [hs] at h2
          intro hnil
          rw [hnil] at h2
          simp at h2
        have hna : rest.reverse.all (fun x => x != '.') = false := by
          cases hallc : rest.reverse.all (fun x => x != '.') with
          | false => rfl
          | true =>
            exfalso
            have := List.all_eq_true.mp hallc '.' (List.mem_reverse.mpr hdot)
            simp at this
        rw [if_neg hc, takeWhile_append_last_notall (fun x => x != '.') c rest.reverse hna,
          List.getLastD_cons, ← ih, List.getLastD_cons]
        exact getLastD_irrel hps _ _
      · have hrest : splitOnDot rest = [rest] := splitOnDot_no_dot hdot
        rw [hrest] at hs
        obtain ⟨hp, hps⟩ := List.cons.inj hs.symm
        subst hps
        subst hp
        have hall : p.reverse.all (fun x => x != '.') = true := by
          rw [List.all_eq_true]
          intro x hx
          have hxr : x ∈ p := List.mem_reverse.mp hx
          simp only [bne_iff_ne, ne_eq]
          intro hxe
          exact hdot (hxe ▸ hxr)
        rw [if_neg hc, takeWhile_append_last_true (fun x => x != '.') c p.reverse hb hall,
          List.reverse_append]
        simp [List.getLastD_cons]

lemma splitDomain_eq_none {d : List Char} (h : '.' ∉ d) : splitDomain d = none := by
  unfold splitDomain
  rw [splitOnDot_no_dot h]

lemma evaluate_no_dot {d : List Char} (h : '.' ∉ d) : Evaluate d = invalidResult := by
  unfold Evaluate
  rw [splitDomain_eq_none h]

lemma exists_cons_cons_of_dot {d : List Char} (h : '.' ∈ d) :
    ∃ p q ps, splitOnDot d = p :: q :: ps := by
  have h2 := two_le_splitOnDot_length h
  obtain ⟨p, t, hs⟩ := List.exists_cons_of_ne_nil (splitOnDot_ne_nil d)
  cases t with
  | nil => rw [hs] at h2; simp at h2
  | cons q ps => exact ⟨p, q, ps, hs⟩

lemma splitDomain_eq_some {d : List Char} {p q : List Char} {ps : List (List Char)}
    (hs : splitOnDot d = p :: q :: ps) :
    splitDomain d = some (p, '.' :: (q :: ps).getLastD q) := by
  unfold splitDomain
  rw [hs]

lemma evaluate_dotted {d : List Char} {p q : List Char} {ps : List (List Char)}
    (hs : splitOnDot d = p :: q :: ps) :
    Evaluate d = mkResult p ('.' :: (q :: ps).getLastD q) := by
  unfold Evaluate
  rw [splitDomain_eq_some hs]

lemma clamp_bounds (v : ℚ) :
    10 ≤ (if (if v < 10 then (10:ℚ) else v) > 1000000 then 1000000
          else if v < 10 then 10 else v)
    ∧ (if (if v < 10 then (10:ℚ) else v) > 1000000 then 1000000
       else if v < 10 then 10 else v) ≤ 1000000 := by
  by_cases h1 : v < 10
  · rw [if_pos h1, if_neg (by norm_num : ¬ (10:ℚ) > 1000000)]
    norm_num
  · rw [if_neg h1]
    by_cases h2 : v > 1000000
    · rw [if_pos h2]
      norm_num
    · rw [if_neg h2]
      exact ⟨not_lt.mp h1, not_lt.mp h2⟩

lemma calculateValue_bounds (f : Factors) :
    10 ≤ calculateValue f ∧ calculateValue f ≤ 1000000 := by
  simp only [calculateValue]
  exact clamp_bounds _

lemma clamp_eq_claimClamp (v : ℚ) :
    (if (if v < 10 then (10:ℚ) else v) > 1000000 then 1000000
     else if v < 10 then 10 else v) = claimClamp v := by
  unfold claimClamp
  split_ifs <;> simp [min_def, max_def] <;> split_ifs <;> linarith

lemma truncQ_le_of_le {q : ℚ} {z : ℤ} (h : q ≤ (z : ℚ)) (h0 : (0:ℚ) ≤ q) :
    truncQ q ≤ z := by
  unfold truncQ
  rw [if_neg (by linarith : ¬ q < 0)]
  have hfl : Rat.floor q = ⌊q⌋ := by rw [Rat.floor_def', ← Rat.floor_def]
  rw [hfl]
  have h1 : (⌊q⌋ : ℚ) ≤ (z : ℚ) := le_trans (Int.floor_le q) h
  exact_mod_cast h1

lemma le_truncQ_of_le {q : ℚ} {z : ℤ} (h : (z : ℚ) ≤ q) (h0 : (0:ℚ) ≤ q) :
    z ≤ truncQ q := by
  unfold truncQ
  rw [if_neg (by linarith : ¬ q < 0)]
  have hfl : Rat.floor q = ⌊q⌋ := by rw [Rat.floor_def', ← Rat.floor_def]
  rw [hfl]
  exact Int.le_floor.mpr h

lemma mkResult_estimatedValue (name tld : List Char) :
    (mkResult name tld).estimatedValue
      = truncQ (calculateValue (analyzeDomain name tld)) := rfl

lemma mkResult_bounds (name tld : List Char) :
    10 ≤ (mkResult name tld).estimatedValue
    ∧ (mkResult name tld).estimatedValue ≤ 1000000 := by
  rw [mkResult_estimatedValue]
  obtain ⟨hlo, hhi⟩ := calculateValue_bounds (analyzeDomain name tld)
  constructor
  · exact le_truncQ_of_le (by exact_mod_cast hlo) (by linarith)
  · exact truncQ_le_of_le (by exact_mod_cast hhi) (by linarith)

lemma getLast?_eq_some_getLastD {α : Type} (q : α) (ps : List α) :
    (q :: ps).getLast? = some ((q :: ps).getLastD q) := by
  induction ps generalizing q with
  | nil => rfl
  | cons r rs ih =>
    rw [List.getLast?_cons_cons, ih, List.getLastD_cons, List.getLastD_cons,
      List.getLastD_cons]

/-- Claim C1, counterexample: on the dotless string `"localhost"` the engine
returns estimated value 0, which violates the claimed lower bound 10. -/
theorem bounds_claim_cex :
    (Evaluate ("localhost".data)).estimatedValue = 0 ∧
    ¬ (10 ≤ (Evaluate ("localhost".data)).estimatedValue) := by decide

/-- Claim C1 (amended): for every domain string containing at least one `'.'`,
the estimated value lies between 10 and 1000000 inclusive; dotless strings
instead produce the fixed invalid result with value 0. -/
theorem bounds_for_dotted (d : List Char) (h : '.' ∈ d) :
    10 ≤ (Evaluate d).estimatedValue ∧ (Evaluate d).estimatedValue ≤ 1000000 := by
  obtain ⟨p, q, ps, hs⟩ := exists_cons_cons_of_dot h
  rw [evaluate_dotted hs]
  exact mkResult_bounds _ _

/-- Witness for `bounds_for_dotted` at the concrete domain `"app.com"`. -/
theorem bounds_for_dotted_witness :
    10 ≤ (Evaluate ("app.com".data)).estimatedValue ∧
    (Evaluate ("app.com".data)).estimatedValue ≤ 1000000 :=
  bounds_for_dotted ("app.com".data) (by decide)

/-- Claim C4, counterexample: on `"a.b.COM"` the engine takes the FIRST
label `"a"` as the name (not `"a.b"`) and keeps the suffix case (`".COM"`,
not the lower-cased `".com"`), refuting the claimed split contract. -/
theorem split_last_boundary_cex :
    splitDomain ("a.b.COM".data) = some ("a".data, ".COM".data) ∧
    "a".data ≠ "a.b".data ∧ ".COM".data ≠ ".com".data := by decide

/-- Claim C4 (amended): for every domain string containing a `'.'`, the
analyzer takes as name the segment before the FIRST `'.'` and as suffix
`'.'` followed by the segment after the last `'.'`, case preserved. -/
theorem split_first_label (d : List Char) (h : '.' ∈ d) :
    splitDomain d =
      some (d.takeWhile (fun c => c != '.'),
            '.' :: (d.reverse.takeWhile (fun c => c != '.')).reverse) := by
  obtain ⟨p, q, ps, hs⟩ := exists_cons_cons_of_dot h
  rw [splitDomain_eq_some hs]
  have hh := splitOnDot_headD d
  have hl := splitOnDot_getLastD d
  rw [hs] at hh hl
  simp only [List.headD_cons] at hh
  have hl' : (q :: ps).getLastD q = (d.reverse.takeWhile (fun c => c != '.')).reverse := by
    rw [getLastD_irrel (List.cons_ne_nil q ps) q p, ← List.getLastD_cons [] p (q :: ps)]
    exact hl
  rw [hh, hl']

/-- Witness for `split_first_label` at the concrete domain `"a.b.com"`. -/
theorem split_first_label_witness :
    splitDomain ("a.b.com".data) =
      some (("a.b.com".data).takeWhile (fun c => c != '.'),
            '.' :: (("a.b.com".data).reverse.takeWhile (fun c => c != '.')).reverse) :=
  split_first_label ("a.b.com".data) (by decide)

/-- Claim C5, counterexample: on the dotless string `"localhost"` the engine
returns estimated value 0, not the clamp floor 10 the claim asserts. -/
theorem dotless_floor_cex :
    (Evaluate ("localhost".data)).estimatedValue = 0 ∧
    (Evaluate ("localhost".data)).estimatedValue ≠ 10 := by decide

/-- Claim C5 (amended): a string with no `'.'` yields the fixed invalid
result: zero factor set (hence no suffix contribution), confidence low, and
estimated value 0 (not the clamp floor of §4.3) — and never an error. -/
theorem dotless_result (d : List Char) (h : '.' ∉ d) :
    Evaluate d = invalidResult ∧ (Evaluate d).confidence = "low" ∧
    (Evaluate d).estimatedValue = 0 ∧ (Evaluate d).factors = Factors.zero := by
  have he := evaluate_no_dot h
  refine ⟨he, ?_, ?_, ?_⟩ <;> rw [he] <;> rfl

/-- Witness for `dotless_result` at the concrete input `"localhost"`. -/
theorem dotless_result_witness :
    Evaluate ("localhost".data) = invalidResult ∧
    (Evaluate ("localhost".data)).confidence = "low" ∧
    (Evaluate ("localhost".data)).estimatedValue = 0 ∧
    (Evaluate ("localhost".data)).factors = Factors.zero :=
  dotless_result ("localhost".data) (by decide)

/-- Claim C6: the engine is total — with Go's runtime-checked slice accesses
modelled as fallible lookups, evaluation always returns a result (never the
`none` that would correspond to a panic), and a separator-free string yields
the degraded zero-length result rather than a failure. -/
theorem evaluate_total (d : List Char) :
    EvaluateOpt d = some (Evaluate d) ∧
    ('.' ∉ d → (Evaluate d).factors.length = 0) := by
  constructor
  · obtain ⟨p, t, hs⟩ := List.exists_cons_of_ne_nil (splitOnDot_ne_nil d)
    cases t with
    | nil =>
      have hinv : Evaluate d = invalidResult := by
        have hn : splitDomain d = none := by
          unfold splitDomain
          rw [hs]
        unfold Evaluate
        rw [hn]
      simp only [EvaluateOpt]
      rw [hs, hinv]
      simp
    | cons q ps =>
      have hl : (p :: q :: ps).getLast? = some ((q :: ps).getLastD q) := by
        rw [List.getLast?_cons_cons]
        exact getLast?_eq_some_getLastD q ps
      simp only [EvaluateOpt]
      rw [hs, evaluate_dotted hs, hl]
      rw [if_neg (by simp only [List.length_cons]; omega : ¬ (p :: q :: ps).length < 2)]
      rfl
  · intro h
    rw [evaluate_no_dot h]
    rfl

/-- Witness for `evaluate_total` at the concrete input `"localhost"`. -/
theorem evaluate_total_witness :
    EvaluateOpt ("localhost".data) = some (Evaluate ("localhost".data)) ∧
    (Evaluate ("localhost".data)).factors.length = 0 :=
  ⟨(evaluate_total ("localhost".data)).1,
   (evaluate_total ("localhost".data)).2 (by decide)⟩

/-- Claim C9: the length score is the stated step function with inclusive
upper bounds, and is non-increasing in the length. -/
theorem lengthScore_steps_and_antitone :
    (∀ n : Nat,
      (n ≤ 3 → calculateLengthScore n = 10.0) ∧
      (4 ≤ n → n ≤ 5 → calculateLengthScore n = 8.0) ∧
      (6 ≤ n → n ≤ 7 → calculateLengthScore n = 6.0) ∧
      (8 ≤ n → n ≤ 10 → calculateLengthScore n = 4.0) ∧
      (11 ≤ n → n ≤ 15 → calculateLengthScore n = 2.0) ∧
      (16 ≤ n → calculateLengthScore n = 1.0))
    ∧ (∀ a b : Nat, a ≤ b → calculateLengthScore b ≤ calculateLengthScore a) := by
  constructor
  · intro n
    refine ⟨fun h => ?_, fun h1 h2 => ?_, fun h1 h2 => ?_, fun h1 h2 => ?_,
      fun h1 h2 => ?_, fun h => ?_⟩ <;>
    · unfold calculateLengthScore
      split_ifs <;> first | rfl | (exfalso; omega)
  · intro a b hab
    unfold calculateLengthScore
    split_ifs <;> first | (exfalso; omega) | norm_num

/-- Witness for `lengthScore_steps_and_antitone` at lengths 4 and 2 ≤ 16. -/
theorem lengthScore_witness :
    calculateLengthScore 4 = 8.0 ∧
    calculateLengthScore 16 ≤ calculateLengthScore 2 :=
  ⟨(lengthScore_steps_and_antitone.1 4).2.1 (by norm_num) (by norm_num),
   lengthScore_steps_and_antitone.2 2 16 (by norm_num)⟩

/-- Claim C2: the aggregated value is base 100 times the multiplier assembled
in the spec's exact order (three multiplicative factor steps, then the single
additive word-bonus step, then the four conditional multipliers), finally
clamped into [10, 1000000]. -/
theorem value_formula (f : Factors) :
    calculateValue f = claimClamp (100.0 * claimMultiplier f) := by
  simp only [calculateValue, claimMultiplier]
  exact clamp_eq_claimClamp _

lemma one_le_characterScoreRaw (name : List Char) : 1 ≤ characterScoreRaw name := by
  simp only [characterScoreRaw]
  split_ifs <;> norm_num

lemma calculateCharacterScore_eq_raw (name : List Char) :
    calculateCharacterScore name = characterScoreRaw name :=
  max_eq_right (le_trans (by norm_num) (one_le_characterScoreRaw name))

lemma one_le_calculateLengthScore (n : Nat) : 1 ≤ calculateLengthScore n := by
  unfold calculateLengthScore
  split_ifs <;> norm_num

lemma lookup_mem {α β : Type} [BEq α] {k : α} {l : List (α × β)} {v : β}
    (h : List.lookup k l = some v) : ∃ kv ∈ l, kv.2 = v := by
  induction l with
  | nil => simp [List.lookup] at h
  | cons kv es ih =>
    obtain ⟨k', v'⟩ := kv
    rw [List.lookup] at h
    split at h
    · injection h with hv
      exact ⟨(k', v'), List.mem_cons_self _ _, hv⟩
    · obtain ⟨kv', hmem, hv⟩ := ih h
      exact ⟨kv', List.mem_cons_of_mem _ hmem, hv⟩

lemma one_le_calculateTLDScore (tld : List Char) : 1 ≤ calculateTLDScore tld := by
  unfold calculateTLDScore
  cases h : List.lookup tld commonTLDs with
  | none => norm_num
  | some s =>
    obtain ⟨kv, hmem, hv⟩ := lookup_mem h
    subst hv
    unfold commonTLDs at hmem
    fin_cases hmem <;> norm_num

/-- Claim C3: the confidence tier comes from the independent point
accumulator with the stated increments and thresholds, and the maximum
attainable total is 8 (bounded by 8 and attained by some factor set). -/
theorem confidence_spec :
    (∀ f : Factors,
      confidencePoints f =
        (if f.length ≤ 5 then 2 else 0) + (if f.brandable then 2 else 0)
        + (if f.pronounceable then 1 else 0) + (if f.tldScore ≥ 4.0 then 2 else 0)
        + (if ¬ f.hasNumbers = true ∧ ¬ f.hasHyphens = true then 1 else 0)
      ∧ determineConfidence f =
          (if 6 ≤ confidencePoints f then "high"
           else if 3 ≤ confidencePoints f then "medium" else "low")
      ∧ confidencePoints f ≤ 8)
    ∧ (∃ f : Factors, confidencePoints f = 8) := by
  constructor
  · intro f
    refine ⟨?_, rfl, ?_⟩
    · simp only [confidencePoints]
      split_ifs <;> simp_all
    · simp only [confidencePoints]
      split_ifs <;> omega
  · exact ⟨⟨3, 0, 0, 0, 5.0, true, true, false, false⟩, by norm_num [confidencePoints]⟩

/-- Claim C10: the character score is at least 1 (the zero floor is never
binding), the suffix score is at least 1, and hence the multiplier of
`calculateValue` is strictly positive before the word-bonus step. -/
theorem subscores_positive :
    (∀ name : List Char,
       1 ≤ characterScoreRaw name
       ∧ calculateCharacterScore name = characterScoreRaw name
       ∧ 1 ≤ calculateCharacterScore name)
    ∧ (∀ tld : List Char, 1 ≤ calculateTLDScore tld)
    ∧ (∀ name tld : List Char,
        0 < 1.0 * (((analyzeDomain name tld).lengthScore / 10.0) * 2.0)
              * ((analyzeDomain name tld).characterScore / 5.0)
              * ((analyzeDomain name tld).tldScore / 5.0)) := by
  refine ⟨fun name => ⟨one_le_characterScoreRaw name, calculateCharacterScore_eq_raw name, ?_⟩,
    one_le_calculateTLDScore, fun name tld => ?_⟩
  · rw [calculateCharacterScore_eq_raw name]
    exact one_le_characterScoreRaw name
  · simp only [analyzeDomain]
    have hL := one_le_calculateLengthScore name.length
    have hC : 1 ≤ calculateCharacterScore name := by
      rw [calculateCharacterScore_eq_raw name]
      exact one_le_characterScoreRaw name
    have hT := one_le_calculateTLDScore tld
    have h1 : (0:ℚ) < (calculateLengthScore name.length / 10.0) * 2.0 :=
      mul_pos (div_pos (by linarith) (by norm_num)) (by norm_num)
    have h2 : (0:ℚ) < calculateCharacterScore name / 5.0 :=
      div_pos (by linarith) (by norm_num)
    have h3 : (0:ℚ) < calculateTLDScore tld / 5.0 :=
      div_pos (by linarith) (by norm_num)
    exact mul_pos (mul_pos (mul_pos (by norm_num) h1) h2) h3

lemma pronounceable_iff (name : List Char) :
    isPronounceableWord name = true ↔
      (0 < vowelCount (name.map Char.toLower) ∧
       0.5 ≤ (consonantCount (name.map Char.toLower) : ℚ)
               / (vowelCount (name.map Char.toLower) : ℚ) ∧
       (consonantCount (name.map Char.toLower) : ℚ)
         / (vowelCount (name.map Char.toLower) : ℚ) ≤ 4.0) := by
  unfold isPronounceableWord
  by_cases hv : vowelCount (name.map Char.toLower) = 0
  · simp [hv]
  · simp [hv, Nat.pos_of_ne_zero hv, Bool.and_eq_true, decide_eq_true_eq, and_assoc]

/-- Claim C8: brandable holds exactly when the four conditions hold — length
in [3,12], no digits, no hyphen, and pronounceable (at least one vowel and a
consonant-to-vowel ratio over letters in [0.5, 4.0]). -/
theorem brandable_iff (name : List Char) :
    isBrandable name = true ↔
      (3 ≤ name.length ∧ name.length ≤ 12 ∧
       containsNumbers name = false ∧ name.contains '-' = false ∧
       0 < vowelCount (name.map Char.toLower) ∧
       0.5 ≤ (consonantCount (name.map Char.toLower) : ℚ)
               / (vowelCount (name.map Char.toLower) : ℚ) ∧
       (consonantCount (name.map Char.toLower) : ℚ)
         / (vowelCount (name.map Char.toLower) : ℚ) ≤ 4.0) := by
  have hpr := pronounceable_iff name
  unfold isBrandable
  split_ifs with h1 h2 h3
  · simp only [Bool.or_eq_true, decide_eq_true_eq] at h1
    simp only [Bool.false_eq_true, false_iff]
    rintro ⟨ha, hb, -⟩
    omega
  · simp only [Bool.or_eq_true] at h2
    simp only [Bool.false_eq_true, false_iff]
    rintro ⟨-, -, hn, hh, -⟩
    rcases h2 with h2 | h2
    · rw [hn] at h2
      cases h2
    · rw [hh] at h2
      cases h2
  · have hp : isPronounceableWord name = false := by simpa using h3
    simp only [Bool.false_eq_true, false_iff]
    rintro ⟨-, -, -, -, hv, hr1, hr2⟩
    have htr := hpr.mpr ⟨hv, hr1, hr2⟩
    rw [htr] at hp
    cases hp
  · simp only [Bool.or_eq_true, decide_eq_true_eq, not_or] at h1
    have h2f : (containsNumbers name || name.contains '-') = false := by
      simpa using h2
    have hp : isPronounceableWord name = true := by
      simpa using h3
    obtain ⟨hv, hr1, hr2⟩ := hpr.mp hp
    simp only [true_iff]
    refine ⟨by omega, by omega, ?_, ?_, hv, hr1, hr2⟩
    · simpa using (Bool.or_eq_false_iff.mp h2f).1
    · simpa using (Bool.or_eq_false_iff.mp h2f).2

lemma containsSub_iff (hay needle : List Char) :
    containsSub hay needle = true ↔ needle <:+: hay := by
  induction hay with
  | nil => simp [containsSub, List.isEmpty_iff, List.infix_nil]
  | cons c t ih =>
    simp only [containsSub, Bool.or_eq_true, ih,  List.isPrefixOf_iff_prefix]
    exact (List.infix_cons_iff).symm

lemma dictionary_iff (nl : List Char) :
    isLikelyDictionaryWord nl = true ↔ nl ∈ commonWords := by
  unfold isLikelyDictionaryWord
  simp [List.contains, List.elem_iff]

lemma compound_iff (nl : List Char) :
    isLikelyCompoundWord nl = true ↔
      (6 ≤ nl.length ∧
        ((∃ p ∈ compoundPrefixes, p <+: nl ∧ p.length + 2 < nl.length) ∨
         (∃ s ∈ compoundSuffixes, s <:+ nl ∧ s.length + 2 < nl.length))) := by
  unfold isLikelyCompoundWord
  by_cases hlen : nl.length < 6
  · rw [if_pos hlen]
    simp only [Bool.false_eq_true, false_iff, not_and]
    intro h6
    omega
  · rw [if_neg hlen]
    simp only [Bool.or_eq_true, List.any_eq_true, Bool.and_eq_true, decide_eq_true_eq,
       List.isPrefixOf_iff_prefix,  List.isSuffixOf_iff_suffix]
    constructor
    · intro h
      refine ⟨by omega, ?_⟩
      rcases h with ⟨p, hp, hpre, hlt⟩ | ⟨s, hsm, hsuf, hlt⟩
      · exact Or.inl ⟨p, hp, hpre, by omega⟩
      · exact Or.inr ⟨s, hsm, hsuf, by omega⟩
    · rintro ⟨h6, h | h⟩
      · obtain ⟨p, hp, hpre, hlt⟩ := h
        exact Or.inl ⟨p, hp, hpre, by omega⟩
      · obtain ⟨s, hsm, hsuf, hlt⟩ := h
        exact Or.inr ⟨s, hsm, hsuf, by omega⟩

lemma foldl_premium (l : List (List Char)) (hay : List Char) (a : ℚ) :
    l.foldl (fun s w => if containsSub hay w then s + 3.0 else s) a
      = a + 3 * ((l.filter (fun w => containsSub hay w)).length : ℚ) := by
  induction l generalizing a with
  | nil => simp
  | cons w t ih =>
    by_cases hw : containsSub hay w = true
    · simp only [List.foldl_cons, hw, if_true, List.filter_cons, ih]
      rw [List.length_cons]
      push_cast
      ring
    · have hw' : containsSub hay w = false := by simpa using hw
      simp [List.foldl_cons, hw', List.filter_cons, ih]

/-- Claim C7: the word score is the sum of three independent bonuses over the
lower-cased name — 3.0 per premium word occurring as a substring, 2.0 when the
whole name equals a dictionary word, 1.0 when the name has at least 6
characters and starts/ends with a brand affix while being more than 2
characters longer than it. -/
theorem wordScore_formula (name : List Char) :
    calculateWordScore name =
      3 * (((premiumWords.filter
              (fun w => decide (w <:+: (name.map Char.toLower)))).length : ℚ))
      + (if (name.map Char.toLower) ∈ commonWords then 2.0 else 0)
      + (if 6 ≤ name.length ∧
            ((∃ p ∈ compoundPrefixes, p <+: (name.map Char.toLower)
                ∧ p.length + 2 < name.length) ∨
             (∃ s ∈ compoundSuffixes, s <:+ (name.map Char.toLower)
                ∧ s.length + 2 < name.length))
         then 1.0 else 0) := by
  have hnl : (name.map Char.toLower).length = name.length := List.length_map _ _
  have hfun : (fun w => containsSub (name.map Char.toLower) w)
      = (fun w => decide (w <:+: (name.map Char.toLower))) := by
    funext w
    by_cases h : w <:+: (name.map Char.toLower)
    · rw [(containsSub_iff _ _).mpr h, decide_eq_true h]
    · rw [decide_eq_false h]
      cases hcs : containsSub (name.map Char.toLower) w with
      | false => rfl
      | true => exact absurd ((containsSub_iff _ _).mp hcs) h
  simp only [calculateWordScore]
  rw [foldl_premium, hfun]
  by_cases hd : (name.map Char.toLower) ∈ commonWords
  · have hd' : isLikelyDictionaryWord (name.map Char.toLower) = true :=
      (dictionary_iff _).mpr hd
    by_cases hc : 6 ≤ name.length ∧
        ((∃ p ∈ compoundPrefixes, p <+: (name.map Char.toLower)
            ∧ p.length + 2 < name.length) ∨
         (∃ s ∈ compoundSuffixes, s <:+ (name.map Char.toLower)
            ∧ s.length + 2 < name.length))
    · have hc' : isLikelyCompoundWord (name.map Char.toLower) = true := by
        rw [compound_iff, hnl]
        exact hc
      simp [hd', hc', hd, hc]
      ring
    · have hc' : isLikelyCompoundWord (name.map Char.toLower) = false := by
        rw [← Bool.not_eq_true, compound_iff, hnl]
        exact hc
      simp [hd', hc', hd, hc]
      ring
  · have hd' : isLikelyDictionaryWord (name.map Char.toLower) = false := by
      rw [← Bool.not_eq_true, dictionary_iff]
      exact hd
    by_cases hc : 6 ≤ name.length ∧
        ((∃ p ∈ compoundPrefixes, p <+: (name.map Char.toLower)
            ∧ p.length + 2 < name.length) ∨
         (∃ s ∈ compoundSuffixes, s <:+ (name.map Char.toLower)
            ∧ s.length + 2 < name.length))
    · have hc' : isLikelyCompoundWord (name.map Char.toLower) = true := by
        rw [compound_iff, hnl]
        exact hc
      simp [hd', hc', hd, hc]
      ring
    · have hc' : isLikelyCompoundWord (name.map Char.toLower) = false := by
        rw [← Bool.not_eq_true, compound_iff, hnl]
        exact hc
      simp [hd', hc', hd, hc]
      norm_num

end Valuation
